import Mathlib

/-!
Verification of the retrieval core of the RAG pipeline repository:
the chunker (`services/document_processor.py`) and the embedding store
(`services/vector_store.py`).  Python strings are modelled as `List Char`,
Python ints as `ℕ`/`ℤ`, floats as `ℚ` (with an abstract square root for
`np.linalg.norm`), and the two persisted artifacts as explicit parameters.
-/

namespace DocumentProcessor

/-- Python `\s` (ASCII range): space, tab, newline, carriage return,
vertical tab, form feed. -/
def isPySpace (c : Char) : Bool :=
  c = ' ' || c = '\t' || c = '\n' || c = '\r' || c = '\x0b' || c = '\x0c'

/-- Python `\w`: word characters (letters, digits, underscore). -/
def isWordChar (c : Char) : Bool := c.isAlphanum || c = '_'

/-- The safe character set kept by `_clean_text`'s second substitution:
`[\w\s\.\,\;\:\!\?\-\(\)]`. -/
def isAllowedChar (c : Char) : Bool :=
  isWordChar c || isPySpace c ||
    (c = '.' || c = ',' || c = ';' || c = ':' || c = '!' || c = '?' ||
     c = '-' || c = '(' || c = ')')

/-- `re.sub(r'\s+', ' ', text)`: collapse each maximal whitespace run to a
single space.  The boolean tracks whether the previous character was
whitespace (i.e. we are inside a run that already emitted its space). -/
def collapseWsAux : List Char → Bool → List Char
  | [], _ => []
  | c :: rest, prevSpace =>
    if isPySpace c then
      if prevSpace then collapseWsAux rest true
      else ' ' :: collapseWsAux rest true
    else c :: collapseWsAux rest false

def collapseWs (text : List Char) : List Char := collapseWsAux text false

/-- `re.sub(r'[^\w\s\.\,\;\:\!\?\-\(\)]', ' ', text)`: replace each
character outside the safe set with a space. -/
def replaceDisallowed (text : List Char) : List Char :=
  text.map (fun c => if isAllowedChar c then c else ' ')

/-- Try to match the regex `--- Page \d+ ---` at the head of the list;
on success return the remainder after the match. -/
def matchMarker (l : List Char) : Option (List Char) :=
  if l.take 9 = ['-', '-', '-', ' ', 'P', 'a', 'g', 'e', ' '] then
    if (l.drop 9).takeWhile Char.isDigit = [] then none
    else if ((l.drop 9).dropWhile Char.isDigit).take 4 = [' ', '-', '-', '-'] then
      some (((l.drop 9).dropWhile Char.isDigit).drop 4)
    else none
  else none

/-- `re.sub(r'--- Page \d+ ---', '', text)`: scan left to right, deleting
each non-overlapping occurrence of the page-marker pattern.  The fuel
argument (instantiated with the text length, which bounds the number of
scan steps since every step consumes at least one character) makes the
recursion structural. -/
def removeMarkersFuel : ℕ → List Char → List Char
  | 0, _ => []
  | _ + 1, [] => []
  | fuel + 1, c :: rest =>
    match matchMarker (c :: rest) with
    | some tail => removeMarkersFuel fuel tail
    | none => c :: removeMarkersFuel fuel rest

def removeMarkers (l : List Char) : List Char := removeMarkersFuel l.length l

/-- Python `str.strip()`: remove leading and trailing whitespace. -/
def pyStrip (s : List Char) : List Char :=
  ((s.dropWhile isPySpace).reverse.dropWhile isPySpace).reverse

/-- `_clean_text`: collapse whitespace, blank out disallowed characters,
remove page markers, then strip. -/
def clean_text (text : List Char) : List Char :=
  pyStrip (removeMarkers (replaceDisallowed (collapseWs text)))

/-- A sentence-terminating character for `re.split(r'[.!?]+', text)`. -/
def isSentEnd (c : Char) : Bool := c = '.' || c = '!' || c = '?'

/-- `re.split(r'[.!?]+', text)`: fragments between maximal runs of
sentence terminators.  `acc` is the current fragment reversed; the boolean
records whether the previous character was a terminator (so that a run
yields a single split). -/
def splitRunsAux : List Char → List Char → Bool → List (List Char)
  | [], acc, _ => [acc.reverse]
  | c :: rest, acc, prevEnd =>
    if isSentEnd c then
      if prevEnd then splitRunsAux rest acc true
      else acc.reverse :: splitRunsAux rest [] true
    else splitRunsAux rest (c :: acc) false

/-- `_split_into_sentences`: split on terminator runs, strip each fragment,
keep the non-empty ones. -/
def split_into_sentences (text : List Char) : List (List Char) :=
  ((splitRunsAux text [] false).map pyStrip).filter (fun s => !s.isEmpty)

/-- `_get_overlap_text`: the last `overlap_size` characters (the whole text
if it is no longer than `overlap_size`).  Note Python's `text[-0:]` is the
whole string, so `overlap_size = 0` also returns the whole text. -/
def get_overlap_text (text : List Char) (overlap_size : ℕ) : List Char :=
  if text.length ≤ overlap_size then text
  else if overlap_size = 0 then text
  else text.drop (text.length - overlap_size)

/-- The digit character for a value below 10 (`'0'` is code point 48). -/
def digitChar (n : ℕ) : Char := Char.ofNat (48 + n)

/-- Python `str(n)` for a non-negative integer: decimal digits, most
significant first, `"0"` for zero. -/
def natChars (n : ℕ) : List Char :=
  if n = 0 then ['0'] else ((Nat.digits 10 n).reverse).map digitChar

/-- The id `f"{document_id}_{chunk_index}"` built by `_create_chunk_dict`. -/
def segment_id (document_id : List Char) (chunk_index : ℕ) : List Char :=
  document_id ++ '_' :: natChars chunk_index

/-- The chunk dictionary built by `_create_chunk_dict`. -/
structure Chunk where
  id : List Char
  content : List Char
  document_id : List Char
  filename : List Char
  chunk_index : ℕ
  length : ℕ
  created_at : List Char
deriving DecidableEq, Repr

/-- `_create_chunk_dict`; `created_at` stands for the ambient
`datetime.utcnow().isoformat()` value. -/
def create_chunk_dict (content document_id filename : List Char)
    (chunk_index : ℕ) (created_at : List Char) : Chunk :=
  { id := segment_id document_id chunk_index
    content := content
    document_id := document_id
    filename := filename
    chunk_index := chunk_index
    length := content.length
    created_at := created_at }

/-- The sentence-accumulation loop of `_create_chunks`, over the remaining
sentences with state `current_chunk`, `current_length`, `chunk_index`.
On exhaustion the trailing accumulation is emitted if its strip is
non-empty. -/
def chunkLoop (chunk_size chunk_overlap : ℕ)
    (document_id filename created_at : List Char) :
    List (List Char) → List Char → ℕ → ℕ → List Chunk
  | [], current_chunk, _, chunk_index =>
    if pyStrip current_chunk = [] then []
    else [create_chunk_dict (pyStrip current_chunk) document_id filename
            chunk_index created_at]
  | sentence :: rest, current_chunk, current_length, chunk_index =>
    if chunk_size < current_length + sentence.length ∧ current_chunk ≠ [] then
      let seed := get_overlap_text current_chunk chunk_overlap ++ ' ' :: sentence
      create_chunk_dict (pyStrip current_chunk) document_id filename
          chunk_index created_at ::
        chunkLoop chunk_size chunk_overlap document_id filename created_at
          rest seed seed.length (chunk_index + 1)
    else
      chunkLoop chunk_size chunk_overlap document_id filename created_at
        rest (current_chunk ++ ' ' :: sentence)
        (current_length + sentence.length) chunk_index

/-- `_create_chunks`: clean the text, split into sentences, run the greedy
packing loop starting from an empty accumulator. -/
def create_chunks (chunk_size chunk_overlap : ℕ)
    (text document_id filename created_at : List Char) : List Chunk :=
  chunkLoop chunk_size chunk_overlap document_id filename created_at
    (split_into_sentences (clean_text text)) [] 0 0

end DocumentProcessor

namespace VectorStore

open DocumentProcessor (Chunk)

/-- Abstract model of the floating-point square root used by
`np.linalg.norm`: all the code relies on is that the square root of a
non-negative number is zero exactly when the number is zero. -/
structure SqrtFn where
  sqrt : ℚ → ℚ
  sqrt_eq_zero_iff : ∀ x : ℚ, 0 ≤ x → (sqrt x = 0 ↔ x = 0)

/-- `np.dot` on two vectors. -/
def dot (a b : List ℚ) : ℚ := (List.zipWith (fun x y => x * y) a b).sum

/-- `np.linalg.norm`: square root of the sum of squares. -/
def pynorm (S : SqrtFn) (v : List ℚ) : ℚ := S.sqrt (dot v v)

/-- `_cosine_similarity`: dot product over the product of the norms,
with an explicit `0.0` when either norm is zero. -/
def cosine_similarity (S : SqrtFn) (vec1 vec2 : List ℚ) : ℚ :=
  if pynorm S vec1 = 0 ∨ pynorm S vec2 = 0 then 0
  else dot vec1 vec2 / (pynorm S vec1 * pynorm S vec2)

/-- One entry of `self.metadata`. -/
structure Meta where
  chunk_id : List Char
  document_id : List Char
  filename : List Char
  chunk_index : ℕ
  content : List Char
  length : ℕ
  created_at : List Char
  embedding_index : ℕ
deriving DecidableEq, Repr

/-- The in-memory state: the two parallel collections
`self.embeddings` and `self.metadata`. -/
structure Store where
  embeddings : List (List ℚ)
  metadata : List Meta
deriving DecidableEq, Repr

/-- The metadata entry built inside `add_documents` for one chunk, with
`embedding_index` set to the stated position. -/
def metadata_entry (document_id : List Char) (chunk : Chunk) (idx : ℕ) : Meta :=
  { chunk_id := chunk.id
    document_id := document_id
    filename := chunk.filename
    chunk_index := chunk.chunk_index
    content := chunk.content
    length := chunk.length
    created_at := chunk.created_at
    embedding_index := idx }

/-- One iteration of the `add_documents` loop: append the embedding, then
append the metadata entry with `embedding_index = len(self.embeddings) - 1`. -/
def addPair (s : Store) (document_id : List Char) (cv : Chunk × List ℚ) : Store :=
  { embeddings := s.embeddings ++ [cv.2]
    metadata := s.metadata ++
      [metadata_entry document_id cv.1 ((s.embeddings ++ [cv.2]).length - 1)] }

/-- `add_documents`: append all (chunk, embedding) pairs in order, then
flush.  `saveOk` models whether `_save_data` succeeds; on failure the
exception propagates (`Except.error`) but the in-memory mutation has
already happened. -/
def add_documents (s : Store) (document_id : List Char) (chunks : List Chunk)
    (chunk_embeddings : List (List ℚ)) (saveOk : Bool) :
    Except Unit Unit × Store :=
  let s' := (chunks.zip chunk_embeddings).foldl
    (fun st cv => addPair st document_id cv) s
  if saveOk then (Except.ok (), s') else (Except.error (), s')

/-- A `search` result: a copy of the metadata entry plus the score. -/
structure SearchResult where
  meta : Meta
  score : ℚ
deriving DecidableEq, Repr

/-- The `(index, similarity)` list computed by the scan in `search`. -/
def similarities (S : SqrtFn) (s : Store) (query_embedding : List ℚ) :
    List (ℕ × ℚ) :=
  s.embeddings.enum.map (fun ie => (ie.1, cosine_similarity S query_embedding ie.2))

/-- The comparison of `similarities.sort(key=lambda x: x[1], reverse=True)`:
score descending. -/
def scoreGe (a b : ℕ × ℚ) : Prop := b.2 ≤ a.2

instance : DecidableRel scoreGe := fun a b => inferInstanceAs (Decidable (b.2 ≤ a.2))

instance : IsTotal (ℕ × ℚ) scoreGe := ⟨fun a b => le_total b.2 a.2⟩

instance : IsTrans (ℕ × ℚ) scoreGe := ⟨fun _ _ _ h1 h2 => le_trans h2 h1⟩

/-- `search`: empty-store guard, full scan, stable descending sort by
score (Python's `list.sort` is stable; a stable sort under a total
transitive comparison is extensionally unique, modelled by the stable
`insertionSort`), truncation to `top_k`, threshold filter, then metadata
lookup (guarded by `idx < len(self.metadata)`). -/
def search (S : SqrtFn) (s : Store) (query_embedding : List ℚ)
    (top_k : ℕ) (threshold : ℚ) : List SearchResult :=
  if s.embeddings.isEmpty then []
  else
    ((((similarities S s query_embedding).insertionSort scoreGe).take top_k).filter
        (fun p => threshold ≤ p.2)).filterMap
      (fun p => (s.metadata.get? p.1).map (fun m => ⟨m, p.2⟩))

/-- The increasing list of positions whose metadata matches the document,
as collected by the enumerate loop in `delete_document`. -/
def indicesToRemove (s : Store) (document_id : List Char) : List ℕ :=
  (s.metadata.enum.filter (fun im => im.2.document_id = document_id)).map Prod.fst

/-- The reindexing loop `for i, metadata in enumerate(...): metadata['embedding_index'] = i`. -/
def reindex : ℕ → List Meta → List Meta
  | _, [] => []
  | i, m :: rest => { m with embedding_index := i } :: reindex (i + 1) rest

/-- The comparison of `indices_to_remove.sort(reverse=True)`: descending. -/
def natGe (a b : ℕ) : Prop := b ≤ a

instance : DecidableRel natGe := fun a b => inferInstanceAs (Decidable (b ≤ a))

instance : IsTotal ℕ natGe := ⟨fun a b => le_total b a⟩

instance : IsTrans ℕ natGe := ⟨fun _ _ _ h1 h2 => le_trans h2 h1⟩

instance : IsAntisymm ℕ natGe := ⟨fun _ _ h1 h2 => le_antisymm h2 h1⟩

/-- `delete_document`: collect matching positions, early-return `None` if
there are none, otherwise sort the positions descending (stable sort,
modelled by `insertionSort` as in `search`) and delete them one by one
from both arrays, reindex the metadata, and flush.  The Python function
returns `None` on every path, modelled as `Option ℕ` set to `none`. -/
def delete_document (s : Store) (document_id : List Char) (saveOk : Bool) :
    Except Unit (Option ℕ) × Store :=
  if (indicesToRemove s document_id).isEmpty then (Except.ok none, s)
  else
    let desc := (indicesToRemove s document_id).insertionSort natGe
    let s' : Store :=
      { embeddings := desc.foldl (fun l i => l.eraseIdx i) s.embeddings
        metadata := reindex 0 (desc.foldl (fun l i => l.eraseIdx i) s.metadata) }
    if saveOk then (Except.ok none, s') else (Except.error (), s')

/-- The state-dependent part of `get_stats` (`embedding_dimension` and
`model_name` are configuration constants independent of the store). -/
structure Stats where
  total_documents : ℕ
  total_chunks : ℕ
deriving DecidableEq, Repr

/-- `get_stats`: number of distinct document ids and total metadata count. -/
def get_stats (s : Store) : Stats :=
  { total_documents := ((s.metadata.map (fun m => m.document_id)).dedup).length
    total_chunks := s.metadata.length }

/-- `get_document_chunks`: the metadata entries of one document. -/
def get_document_chunks (s : Store) (document_id : List Char) : List Meta :=
  s.metadata.filter (fun m => m.document_id = document_id)

/-- `_load_existing_data` as a function of the two on-disk artifacts:
`none` = file absent, `some (Except.error ())` = file present but its read
raises, `some (Except.ok v)` = file present and readable.  The `try` body
loads each present file in turn; any exception resets both collections. -/
def load_existing_data (embeddings_file : Option (Except Unit (List (List ℚ))))
    (metadata_file : Option (Except Unit (List Meta))) : Store :=
  match embeddings_file with
  | some (Except.error _) => { embeddings := [], metadata := [] }
  | some (Except.ok e) =>
    match metadata_file with
    | some (Except.error _) => { embeddings := [], metadata := [] }
    | some (Except.ok m) => { embeddings := e, metadata := m }
    | none => { embeddings := e, metadata := [] }
  | none =>
    match metadata_file with
    | some (Except.error _) => { embeddings := [], metadata := [] }
    | some (Except.ok m) => { embeddings := [], metadata := m }
    | none => { embeddings := [], metadata := [] }

/-- Store states reachable from the empty store by `add_documents` and
`delete_document` calls (with either flush outcome). -/
inductive Reachable : Store → Prop
  | empty : Reachable { embeddings := [], metadata := [] }
  | add (s : Store) (document_id : List Char) (chunks : List Chunk)
      (vecs : List (List ℚ)) (saveOk : Bool) :
      Reachable s → Reachable (add_documents s document_id chunks vecs saveOk).2
  | del (s : Store) (document_id : List Char) (saveOk : Bool) :
      Reachable s → Reachable (delete_document s document_id saveOk).2

end VectorStore

namespace DocumentProcessor

/-- Length of the longest sentence in a sentence list (0 for no sentences). -/
def maxLen (l : List (List Char)) : ℕ := (l.map List.length).foldr max 0

end DocumentProcessor

namespace VectorStore

open DocumentProcessor (Chunk)

instance {ε α : Type} [DecidableEq ε] [DecidableEq α] : DecidableEq (Except ε α) :=
  fun a b =>
    match a, b with
    | .ok x, .ok y =>
      if h : x = y then isTrue (by rw [h]) else isFalse (fun hh => h (Except.ok.inj hh))
    | .error x, .error y =>
      if h : x = y then isTrue (by rw [h]) else isFalse (fun hh => h (Except.error.inj hh))
    | .ok _, .error _ => isFalse (fun hh => Except.noConfusion hh)
    | .error _, .ok _ => isFalse (fun hh => Except.noConfusion hh)

/-- A concrete square-root model (the identity map) satisfying the `SqrtFn`
interface, used to instantiate theorems at concrete inputs. -/
def idSqrt : SqrtFn where
  sqrt := fun x => x
  sqrt_eq_zero_iff := fun _ _ => Iff.rfl

/-- The zero-valued metadata entry, used as the default for `List.getD`. -/
def defaultMeta : Meta :=
  { chunk_id := [], document_id := [], filename := [], chunk_index := 0
    content := [], length := 0, created_at := [], embedding_index := 0 }

/-- A metadata entry with everything trivial except the document id and
the embedding index. -/
def mkMeta (document_id : List Char) (idx : ℕ) : Meta :=
  { defaultMeta with document_id := document_id, embedding_index := idx }

/-- A sample chunk for concrete instantiations. -/
def sampleChunk : Chunk :=
  { id := [], content := ['x'], document_id := ['A'], filename := []
    chunk_index := 0, length := 1, created_at := [] }

/-- The empty store. -/
def emptyStore : Store := { embeddings := [], metadata := [] }

/-- A store holding one record for document `A`. -/
def sampleStoreA : Store :=
  { embeddings := [[1]], metadata := [mkMeta ['A'] 0] }

/-- A store holding two records for document `A` and one for `B`, with
consistent embedding indices. -/
def sampleStore2 : Store :=
  { embeddings := [[1], [2], [3]]
    metadata := [mkMeta ['A'] 0, mkMeta ['B'] 1, mkMeta ['A'] 2] }

/-- The store invariant: the two collections have equal length and every
metadata entry's `embedding_index` equals its position (stated as the
metadata list being a fixpoint of the reindexing pass). -/
abbrev storeInv (s : Store) : Prop :=
  s.embeddings.length = s.metadata.length ∧ reindex 0 s.metadata = s.metadata

/-- A metadata entry with its (position-dependent) `embedding_index`
normalized away, for comparing record payloads across reindexing. -/
def stripIdx (m : Meta) : Meta := { m with embedding_index := 0 }

/-- Specification-side recursion for the list of matching positions
(increasing order), proved equal to `indicesToRemove`. -/
def collectIdxs {α : Type} (p : α → Bool) : List α → List ℕ
  | [] => []
  | x :: l =>
    if p x then 0 :: (collectIdxs p l).map (· + 1)
    else (collectIdxs p l).map (· + 1)

end VectorStore

/-! ### Theorems -/

namespace VectorStore

theorem dot_self_nonneg (v : List ℚ) : 0 ≤ dot v v := by
  induction v with
  | nil => simp [dot]
  | cons x xs ih =>
    have hx : dot (x :: xs) (x :: xs) = x * x + dot xs xs := by
      simp [dot]
    rw [hx]
    have := mul_self_nonneg x
    linarith

theorem dot_self_eq_zero_iff (v : List ℚ) : dot v v = 0 ↔ ∀ x ∈ v, x = 0 := by
  induction v with
  | nil => simp [dot]
  | cons x xs ih =>
    have hx : dot (x :: xs) (x :: xs) = x * x + dot xs xs := by
      simp [dot]
    rw [hx]
    constructor
    · intro h
      have h1 : 0 ≤ x * x := mul_self_nonneg x
      have h2 : 0 ≤ dot xs xs := dot_self_nonneg xs
      have hxx : x * x = 0 := by linarith
      have hxs : dot xs xs = 0 := by linarith
      intro y hy
      rcases List.mem_cons.mp hy with h' | h'
      · rw [h']
        exact mul_self_eq_zero.mp hxx
      · exact (ih.mp hxs) y h'
    · intro h
      have hx0 : x = 0 := h x (List.mem_cons_self x xs)
      have hxs : dot xs xs = 0 := ih.mpr (fun y hy => h y (List.mem_cons_of_mem x hy))
      rw [hx0, hxs]
      ring

/-- C9: `_cosine_similarity` returns the normalized dot product
`dot/(‖a‖·‖b‖)` whenever both norms are non-zero, returns exactly `0.0`
whenever either norm is zero (equivalently, whenever either vector is all
zeros), and the division that does occur is never by zero. -/
theorem cosine_similarity_spec (S : SqrtFn) (a b : List ℚ) :
    (pynorm S a = 0 ∨ pynorm S b = 0 → cosine_similarity S a b = 0) ∧
    (pynorm S a ≠ 0 → pynorm S b ≠ 0 →
      pynorm S a * pynorm S b ≠ 0 ∧
      cosine_similarity S a b = dot a b / (pynorm S a * pynorm S b)) ∧
    (pynorm S a = 0 ↔ ∀ x ∈ a, x = 0) := by
  refine ⟨?_, ?_, ?_⟩
  · intro h
    unfold cosine_similarity
    rw [if_pos h]
  · intro ha hb
    refine ⟨mul_ne_zero ha hb, ?_⟩
    unfold cosine_similarity
    rw [if_neg (by tauto)]
  · rw [pynorm, S.sqrt_eq_zero_iff _ (dot_self_nonneg a)]
    exact dot_self_eq_zero_iff a

theorem cosine_similarity_spec_witness :
    cosine_similarity idSqrt [1, 0] [1, 0]
        = dot [1, 0] [1, 0] / (pynorm idSqrt [1, 0] * pynorm idSqrt [1, 0]) ∧
    cosine_similarity idSqrt [0, 0] [1, 0] = 0 :=
  ⟨((cosine_similarity_spec idSqrt [1, 0] [1, 0]).2.1 (by simp [pynorm, dot, idSqrt])
      (by simp [pynorm, dot, idSqrt])).2,
   (cosine_similarity_spec idSqrt [0, 0] [1, 0]).1
     (Or.inl (by simp [pynorm, dot, idSqrt]))⟩

end VectorStore

namespace DocumentProcessor

theorem digitChar_injOn : ∀ d1 < 10, ∀ d2 < 10, digitChar d1 = digitChar d2 → d1 = d2 := by
  decide

theorem digitChar_ne_underscore : ∀ d < 10, digitChar d ≠ '_' := by decide

theorem natChars_no_underscore (n : ℕ) : ∀ c ∈ natChars n, c ≠ '_' := by
  intro c hc
  unfold natChars at hc
  split at hc
  · simp at hc
    rw [hc]
    decide
  · simp only [List.mem_map, List.mem_reverse] at hc
    obtain ⟨d, hd, rfl⟩ := hc
    exact digitChar_ne_underscore d (Nat.digits_lt_base (by norm_num) hd)

theorem map_digitChar_inj :
    ∀ (l1 l2 : List ℕ), (∀ d ∈ l1, d < 10) → (∀ d ∈ l2, d < 10) →
      l1.map digitChar = l2.map digitChar → l1 = l2
  | [], [], _, _, _ => rfl
  | [], _ :: _, _, _, h => by simp at h
  | _ :: _, [], _, _, h => by simp at h
  | a :: l1, b :: l2, h1, h2, h => by
    simp only [List.map_cons, List.cons.injEq] at h
    have ha := h1 a (by simp)
    have hb := h2 b (by simp)
    rw [digitChar_injOn a ha b hb h.1,
      map_digitChar_inj l1 l2 (fun d hd => h1 d (by simp [hd]))
        (fun d hd => h2 d (by simp [hd])) h.2]

theorem natChars_injective {m n : ℕ} (h : natChars m = natChars n) : m = n := by
  unfold natChars at h
  by_cases hm : m = 0 <;> by_cases hn : n = 0
  · rw [hm, hn]
  · exfalso
    rw [if_pos hm, if_neg hn] at h
    have hlen := congrArg List.length h
    simp at hlen
    obtain ⟨d, hd⟩ := List.length_eq_one.mp hlen.symm
    rw [hd] at h
    simp at h
    have hd10 : d < 10 := Nat.digits_lt_base (by norm_num) (by rw [hd]; simp)
    have hd0 : d = 0 := digitChar_injOn d hd10 0 (by norm_num) (by
      rw [← h]
      decide)
    have := Nat.ofDigits_digits 10 n
    rw [hd, hd0] at this
    simp [Nat.ofDigits] at this
    exact hn this.symm
  · exfalso
    rw [if_neg hm, if_pos hn] at h
    have hlen := congrArg List.length h
    simp at hlen
    obtain ⟨d, hd⟩ := List.length_eq_one.mp hlen
    rw [hd] at h
    simp at h
    have hd10 : d < 10 := Nat.digits_lt_base (by norm_num) (by rw [hd]; simp)
    have hd0 : d = 0 := digitChar_injOn d hd10 0 (by norm_num) (by
      rw [h]
      decide)
    have := Nat.ofDigits_digits 10 m
    rw [hd, hd0] at this
    simp [Nat.ofDigits] at this
    exact hm this.symm
  · rw [if_neg hm, if_neg hn] at h
    have h1 : ∀ d ∈ (Nat.digits 10 m).reverse, d < 10 := by
      intro d hd
      exact Nat.digits_lt_base (by norm_num) (List.mem_reverse.mp hd)
    have h2 : ∀ d ∈ (Nat.digits 10 n).reverse, d < 10 := by
      intro d hd
      exact Nat.digits_lt_base (by norm_num) (List.mem_reverse.mp hd)
    have := map_digitChar_inj _ _ h1 h2 h
    have hmn : Nat.digits 10 m = Nat.digits 10 n := by
      have := congrArg List.reverse this
      simpa using this
    calc m = Nat.ofDigits 10 (Nat.digits 10 m) := (Nat.ofDigits_digits 10 m).symm
      _ = Nat.ofDigits 10 (Nat.digits 10 n) := by rw [hmn]
      _ = n := Nat.ofDigits_digits 10 n

theorem takeWhile_append_cons {α : Type} (p : α → Bool) (l r : List α) (a : α)
    (hl : ∀ c ∈ l, p c = true) (ha : p a = false) :
    (l ++ a :: r).takeWhile p = l ∧ (l ++ a :: r).dropWhile p = a :: r := by
  induction l with
  | nil => simp [List.takeWhile_cons, List.dropWhile_cons, ha]
  | cons c cs ih =>
    have hc : p c = true := hl c (List.mem_cons_self c cs)
    have ih' := ih (fun x hx => hl x (List.mem_cons_of_mem c hx))
    simp [List.takeWhile_cons, List.dropWhile_cons, hc, ih'.1, ih'.2]

/-- C10: `segment_id` is a pure function of `(document_id, chunk_index)`
and is injective: two distinct pairs never produce the same id (for any
document ids and any non-negative chunk indices). -/
theorem segment_id_injective (d1 d2 : List Char) (i1 i2 : ℕ)
    (h : segment_id d1 i1 = segment_id d2 i2) : d1 = d2 ∧ i1 = i2 := by
  unfold segment_id at h
  have hrev := congrArg List.reverse h
  simp only [List.reverse_append, List.reverse_cons, List.append_assoc,
    List.singleton_append] at hrev
  have p1 := takeWhile_append_cons (fun c => !(c = '_')) (natChars i1).reverse
    d1.reverse '_'
    (by
      intro c hc
      have := natChars_no_underscore i1 c (List.mem_reverse.mp hc)
      simpa using this)
    (by simp)
  have p2 := takeWhile_append_cons (fun c => !(c = '_')) (natChars i2).reverse
    d2.reverse '_'
    (by
      intro c hc
      have := natChars_no_underscore i2 c (List.mem_reverse.mp hc)
      simpa using this)
    (by simp)
  have htake : (natChars i1).reverse = (natChars i2).reverse := by
    rw [← p1.1, ← p2.1, hrev]
  have hdrop : ('_' :: d1.reverse : List Char) = '_' :: d2.reverse := by
    rw [← p1.2, ← p2.2, hrev]
  constructor
  · have := List.cons_injective hdrop
    have := congrArg List.reverse this
    simpa using this
  · apply natChars_injective
    have := congrArg List.reverse htake
    simpa using this

theorem segment_id_injective_witness : (['a'] : List Char) = ['a'] ∧ (0 : ℕ) = 0 :=
  segment_id_injective ['a'] ['a'] 0 0 rfl

end DocumentProcessor

namespace VectorStore

open DocumentProcessor (Chunk)

/-- C6 counterexample: deleting document `A` from a one-record store
removes one record, yet the call returns `None` (no count). -/
theorem delete_document_count_cex :
    (delete_document sampleStoreA ['A'] true).1 = Except.ok none ∧
    sampleStoreA.metadata.length
        - (delete_document sampleStoreA ['A'] true).2.metadata.length = 1 := by
  decide

/-- C6 (amended): `delete_document` never returns a count: its result is
`None` (modelled `ok none`) on every successful path, or the propagated
exception when the flush fails. -/
theorem delete_document_returns_none (s : Store) (document_id : List Char)
    (saveOk : Bool) :
    (delete_document s document_id saveOk).1 = Except.ok none ∨
    (delete_document s document_id saveOk).1 = Except.error () := by
  by_cases h : (indicesToRemove s document_id).isEmpty <;>
    cases saveOk <;> simp [delete_document, h]

/-- C7 counterexample: with a failing flush, `add_documents` raises but the
in-memory store keeps the mutation — it does not equal the pre-call state. -/
theorem add_documents_no_rollback_cex :
    (add_documents emptyStore ['A'] [sampleChunk] [[1]] false).1 = Except.error () ∧
    (add_documents emptyStore ['A'] [sampleChunk] [[1]] false).2 ≠ emptyStore := by
  decide

/-- C7 (amended): when the flush fails the error is surfaced to the caller
(always for `add_documents`; for `delete_document` whenever any record was
removed), but the mutation is not rolled back: the in-memory state equals
the state reached with a successful flush, not the pre-call state. -/
theorem flush_failure_surfaced_state_kept (s : Store) (d : List Char)
    (chunks : List Chunk) (vecs : List (List ℚ)) :
    (add_documents s d chunks vecs false).1 = Except.error () ∧
    (add_documents s d chunks vecs false).2 = (add_documents s d chunks vecs true).2 ∧
    ((indicesToRemove s d).isEmpty = false →
      (delete_document s d false).1 = Except.error ()) ∧
    (delete_document s d false).2 = (delete_document s d true).2 := by
  refine ⟨rfl, rfl, ?_, ?_⟩
  · intro h
    simp [delete_document, h]
  · by_cases h : (indicesToRemove s d).isEmpty <;> simp [delete_document, h]

theorem flush_failure_surfaced_state_kept_witness :
    (delete_document sampleStoreA ['A'] false).1 = Except.error () :=
  (flush_failure_surfaced_state_kept sampleStoreA ['A'] [] []).2.2.1 (by decide)

/-- C8 counterexample: with the embeddings artifact missing and the
metadata artifact present and readable, the store loads the metadata
anyway — a partial load rather than an empty initialization. -/
theorem load_partial_cex :
    load_existing_data none (some (Except.ok [mkMeta ['A'] 0])) =
      { embeddings := [], metadata := [mkMeta ['A'] 0] } ∧
    ({ embeddings := [], metadata := [mkMeta ['A'] 0] } : Store) ≠ emptyStore := by
  constructor
  · rfl
  · decide

/-- C8 (amended): if reading either present artifact raises, the store
initializes with both collections empty; but an artifact that is merely
missing is skipped, so the other one is still loaded (a partial load). -/
theorem load_existing_data_spec (ef : Option (Except Unit (List (List ℚ))))
    (mf : Option (Except Unit (List Meta))) :
    ((ef = some (Except.error ()) ∨ mf = some (Except.error ())) →
      load_existing_data ef mf = emptyStore) ∧
    (∀ m, load_existing_data none (some (Except.ok m)) =
      { embeddings := [], metadata := m }) ∧
    (∀ e, load_existing_data (some (Except.ok e)) none =
      { embeddings := e, metadata := [] }) ∧
    (∀ e m, load_existing_data (some (Except.ok e)) (some (Except.ok m)) =
      { embeddings := e, metadata := m }) := by
  refine ⟨?_, fun m => rfl, fun e => rfl, fun e m => rfl⟩
  rintro (rfl | rfl)
  · rfl
  · rcases ef with _ | (e | e) <;> rfl

theorem load_existing_data_spec_witness :
    load_existing_data (some (Except.error ()))
      (some (Except.ok [mkMeta ['A'] 0])) = emptyStore :=
  (load_existing_data_spec (some (Except.error ()))
    (some (Except.ok [mkMeta ['A'] 0]))).1 (Or.inl rfl)

end VectorStore

namespace VectorStore

open DocumentProcessor (Chunk)

theorem reindex_length : ∀ (k : ℕ) (l : List Meta), (reindex k l).length = l.length
  | _, [] => rfl
  | k, _ :: rest => by simp [reindex, reindex_length (k + 1) rest]

theorem reindex_reindex : ∀ (k : ℕ) (l : List Meta),
    reindex k (reindex k l) = reindex k l
  | _, [] => rfl
  | k, m :: rest => by simp [reindex, reindex_reindex (k + 1) rest]

theorem reindex_append_singleton :
    ∀ (k : ℕ) (l : List Meta) (e : Meta),
      reindex k (l ++ [e]) = reindex k l ++ [{ e with embedding_index := k + l.length }]
  | k, [], e => by simp [reindex]
  | k, m :: rest, e => by
    have := reindex_append_singleton (k + 1) rest e
    simp [reindex, this]
    omega

theorem reindex_get :
    ∀ (l : List Meta) (k i : ℕ) (h : i < (reindex k l).length),
      ((reindex k l).get ⟨i, h⟩).embedding_index = k + i
  | m :: rest, k, 0, _ => by simp [reindex]
  | m :: rest, k, i + 1, h => by
    have hh : i < (reindex (k + 1) rest).length := by
      have := h
      simp [reindex] at this
      simpa [reindex_length] using this
    have := reindex_get rest (k + 1) i hh
    simp only [reindex, List.get_cons_succ]
    rw [this]
    omega

theorem storeInv_addPair (s : Store) (d : List Char) (cv : Chunk × List ℚ)
    (h : storeInv s) : storeInv (addPair s d cv) := by
  obtain ⟨h1, h2⟩ := h
  constructor
  · simp [addPair, h1]
  · show reindex 0 (s.metadata ++ [_]) = _
    rw [reindex_append_singleton, h2]
    have he : (metadata_entry d cv.1 ((s.embeddings ++ [cv.2]).length - 1)).embedding_index
        = 0 + s.metadata.length := by
      simp [metadata_entry, h1]
    show _ ++ [_] = _ ++ [_]
    rw [← he]

theorem storeInv_add (s : Store) (d : List Char) (chunks : List Chunk)
    (vecs : List (List ℚ)) (saveOk : Bool) (h : storeInv s) :
    storeInv (add_documents s d chunks vecs saveOk).2 := by
  have hmain : ∀ (pairs : List (Chunk × List ℚ)) (st : Store), storeInv st →
      storeInv (pairs.foldl (fun st cv => addPair st d cv) st) := by
    intro pairs
    induction pairs with
    | nil => intro st hst; exact hst
    | cons cv rest ih =>
      intro st hst
      exact ih _ (storeInv_addPair st d cv hst)
  unfold add_documents
  cases saveOk <;> exact hmain _ s h

theorem length_foldl_eraseIdx_eq {α β : Type} :
    ∀ (idxs : List ℕ) (l1 : List α) (l2 : List β), l1.length = l2.length →
      (idxs.foldl (fun l i => l.eraseIdx i) l1).length
        = (idxs.foldl (fun l i => l.eraseIdx i) l2).length
  | [], _, _, h => h
  | i :: rest, l1, l2, h => by
    apply length_foldl_eraseIdx_eq rest
    rw [List.length_eraseIdx, List.length_eraseIdx, h]

theorem storeInv_delete (s : Store) (d : List Char) (saveOk : Bool)
    (h : storeInv s) : storeInv (delete_document s d saveOk).2 := by
  unfold delete_document
  split
  · exact h
  · have hs' : storeInv
        { embeddings := ((indicesToRemove s d).insertionSort natGe).foldl
            (fun l i => l.eraseIdx i) s.embeddings
          metadata := reindex 0 (((indicesToRemove s d).insertionSort natGe).foldl
            (fun l i => l.eraseIdx i) s.metadata) } := by
      constructor
      · show _ = (reindex 0 _).length
        rw [reindex_length]
        exact length_foldl_eraseIdx_eq _ _ _ h.1
      · exact reindex_reindex 0 _
    cases saveOk <;> exact hs'

theorem reachable_storeInv (s : Store) (h : Reachable s) : storeInv s := by
  induction h with
  | empty => exact ⟨rfl, rfl⟩
  | add s' d chunks vecs saveOk _ ih => exact storeInv_add s' d chunks vecs saveOk ih
  | del s' d saveOk _ ih => exact storeInv_delete s' d saveOk ih

/-- C4: in every store state reachable from the empty store by any sequence
of `add_documents` and `delete_document` calls, the embeddings and metadata
sequences have equal length and every metadata entry's `embedding_index`
equals that entry's position in the metadata sequence. -/
theorem reachable_invariant (s : Store) (h : Reachable s) :
    s.embeddings.length = s.metadata.length ∧
    ∀ i (hi : i < s.metadata.length), (s.metadata.get ⟨i, hi⟩).embedding_index = i := by
  obtain ⟨h1, h2⟩ := reachable_storeInv s h
  refine ⟨h1, ?_⟩
  intro i hi
  have hi' : i < (reindex 0 s.metadata).length := by rw [h2]; exact hi
  have hg := List.get_of_eq h2.symm ⟨i, hi⟩
  rw [hg, reindex_get s.metadata 0 i hi']
  exact Nat.zero_add i

theorem reachable_invariant_witness :
    (add_documents emptyStore ['A'] [sampleChunk] [[1]] true).2.embeddings.length =
      (add_documents emptyStore ['A'] [sampleChunk] [[1]] true).2.metadata.length :=
  (reachable_invariant _
    (Reachable.add emptyStore ['A'] [sampleChunk] [[1]] true Reachable.empty)).1

end VectorStore

namespace VectorStore

theorem enumFrom_filter_map {β : Type} (p : β → Bool) :
    ∀ (l : List β) (n : ℕ),
      ((l.enumFrom n).filter (fun im => p im.2)).map Prod.fst
        = (collectIdxs p l).map (· + n)
  | [], _ => rfl
  | x :: l, n => by
    have ih := enumFrom_filter_map p l (n + 1)
    have hmaps : (collectIdxs p l).map (· + (n + 1))
        = ((collectIdxs p l).map (· + 1)).map (· + n) := by
      rw [List.map_map]
      apply List.map_congr_left
      intro a _
      simp only [Function.comp_apply]
      omega
    unfold collectIdxs
    rw [List.enumFrom_cons, List.filter_cons]
    by_cases hx : p x
    · rw [if_pos (by simpa using hx), if_pos hx, List.map_cons, ih, hmaps,
        List.map_cons]
      simp
    · rw [if_neg (by simpa using hx), if_neg (by simpa using hx), ih, hmaps]

theorem indicesToRemove_eq_collect (s : Store) (d : List Char) :
    indicesToRemove s d = collectIdxs (fun m => m.document_id = d) s.metadata := by
  unfold indicesToRemove
  have := enumFrom_filter_map (fun m => (m.document_id = d : Bool)) s.metadata 0
  simp only [List.enum] at *
  simpa using this

theorem collect_pairwise_lt {β : Type} (p : β → Bool) :
    ∀ (l : List β), (collectIdxs p l).Pairwise (· < ·)
  | [] => List.Pairwise.nil
  | x :: l => by
    have ih := collect_pairwise_lt p l
    have hmap : ((collectIdxs p l).map (· + 1)).Pairwise (· < ·) := by
      rw [List.pairwise_map]
      exact ih.imp (by omega)
    unfold collectIdxs
    split
    · refine List.Pairwise.cons ?_ hmap
      intro a ha
      simp only [List.mem_map] at ha
      omega
    · exact hmap

theorem collect_length_eq_filter {β : Type} (p : β → Bool) :
    ∀ (l : List β), (collectIdxs p l).length = (l.filter p).length
  | [] => rfl
  | x :: l => by
    have ih := collect_length_eq_filter p l
    unfold collectIdxs
    rw [List.filter_cons]
    split <;> simp [ih]

theorem insertionSort_natGe_desc (l : List ℕ) (h : l.Pairwise (· < ·)) :
    l.insertionSort natGe = l.reverse := by
  apply List.eq_of_perm_of_sorted (r := natGe)
  · exact (List.perm_insertionSort natGe l).trans (List.reverse_perm l).symm
  · exact List.sorted_insertionSort natGe l
  · show (l.reverse).Pairwise natGe
    rw [List.pairwise_reverse]
    exact h.imp (fun hab => le_of_lt hab)

theorem foldl_eraseIdx_map_succ {α : Type} :
    ∀ (idxs : List ℕ) (x : α) (l : List α),
      (idxs.map (· + 1)).foldl (fun t i => t.eraseIdx i) (x :: l)
        = x :: idxs.foldl (fun t i => t.eraseIdx i) l
  | [], _, _ => rfl
  | i :: rest, x, l => by
    simp only [List.map_cons, List.foldl_cons, List.eraseIdx_cons_succ]
    exact foldl_eraseIdx_map_succ rest x (l.eraseIdx i)

theorem foldl_eraseIdx_collect_zip {α β : Type} (p : β → Bool) :
    ∀ (ml : List β) (el : List α), el.length = ml.length →
      ((collectIdxs p ml).reverse).foldl (fun t i => t.eraseIdx i) el
        = ((el.zip ml).filter (fun xm => !(p xm.2))).map Prod.fst
  | [], el, h => by
    have : el = [] := List.length_eq_zero.mp h
    subst this
    rfl
  | m :: ml, el, h => by
    match el with
    | [] => exact absurd h (by simp)
    | x :: el =>
      have h' : el.length = ml.length := by simpa using h
      have ih := foldl_eraseIdx_collect_zip p ml el h'
      have hrevmap : ((collectIdxs p ml).map (· + 1)).reverse
          = ((collectIdxs p ml).reverse).map (· + 1) := (List.map_reverse _ _).symm
      unfold collectIdxs
      by_cases hm : p m
      · rw [if_pos hm, List.reverse_cons, hrevmap, List.foldl_append,
          foldl_eraseIdx_map_succ]
        simp only [List.foldl_cons, List.eraseIdx_cons_zero, List.foldl_nil]
        rw [ih, List.zip_cons_cons, List.filter_cons]
        simp [hm]
      · rw [if_neg (by simpa using hm), hrevmap, foldl_eraseIdx_map_succ, ih,
          List.zip_cons_cons, List.filter_cons]
        simp [hm]

theorem zip_self_filter_snd {β : Type} (p : β → Bool) :
    ∀ (l : List β),
      ((l.zip l).filter (fun xm => !(p xm.2))).map Prod.fst
        = l.filter (fun x => !(p x))
  | [] => rfl
  | x :: l => by
    have ih := zip_self_filter_snd p l
    simp only [List.zip_cons_cons, List.filter_cons]
    by_cases hx : p x <;> simp [hx, ih]

theorem length_filter_not_add {β : Type} (p : β → Bool) :
    ∀ (l : List β),
      (l.filter (fun x => !(p x))).length + (l.filter p).length = l.length
  | [] => rfl
  | x :: l => by
    have ih := length_filter_not_add p l
    simp only [List.filter_cons]
    by_cases hx : p x <;> simp [hx] <;> omega

theorem delete_document_characterization (s : Store) (d : List Char)
    (saveOk : Bool) (hinv : storeInv s) :
    (delete_document s d saveOk).2 =
      { embeddings := ((s.embeddings.zip s.metadata).filter
          (fun xm => !(xm.2.document_id = d))).map Prod.fst
        metadata := reindex 0 (s.metadata.filter (fun m => !(m.document_id = d))) } := by
  have hcoll := indicesToRemove_eq_collect s d
  unfold delete_document
  split
  · next hempty =>
    have hnil : indicesToRemove s d = [] := by
      simpa [List.isEmpty_iff] using hempty
    have hfnil : s.metadata.filter (fun m => (m.document_id = d : Bool)) = [] := by
      have := collect_length_eq_filter (fun m => (m.document_id = d : Bool)) s.metadata
      rw [← hcoll, hnil] at this
      exact List.length_eq_zero.mp this.symm
    have hall : ∀ m ∈ s.metadata, ¬((m.document_id = d : Bool) = true) :=
      List.filter_eq_nil_iff.mp hfnil
    have hmeta : s.metadata.filter (fun m => !(m.document_id = d)) = s.metadata := by
      apply List.filter_eq_self.mpr
      intro m hm
      simpa using hall m hm
    have hemb : ((s.embeddings.zip s.metadata).filter
        (fun xm => !(xm.2.document_id = d))).map Prod.fst = s.embeddings := by
      rw [List.filter_eq_self.mpr, List.map_fst_zip _ _ (le_of_eq hinv.1)]
      intro xm hxm
      have := (List.of_mem_zip hxm).2
      simpa using hall xm.2 this
    rw [hmeta, hemb, hinv.2]
  · have hsort : (indicesToRemove s d).insertionSort natGe
        = (collectIdxs (fun m => (m.document_id = d : Bool)) s.metadata).reverse := by
      rw [hcoll]
      exact insertionSort_natGe_desc _ (collect_pairwise_lt _ _)
    have hemb := foldl_eraseIdx_collect_zip
      (fun m => (m.document_id = d : Bool)) s.metadata s.embeddings hinv.1
    have hmeta := (foldl_eraseIdx_collect_zip
      (fun m => (m.document_id = d : Bool)) s.metadata s.metadata rfl).trans
      (zip_self_filter_snd (fun m => (m.document_id = d : Bool)) s.metadata)
    have hstore : Store.mk
        (((indicesToRemove s d).insertionSort natGe).foldl
          (fun l i => l.eraseIdx i) s.embeddings)
        (reindex 0 (((indicesToRemove s d).insertionSort natGe).foldl
          (fun l i => l.eraseIdx i) s.metadata)) =
        Store.mk
          (((s.embeddings.zip s.metadata).filter
            (fun xm => !(xm.2.document_id = d))).map Prod.fst)
          (reindex 0 (s.metadata.filter (fun m => !(m.document_id = d)))) := by
      rw [Store.mk.injEq]
      constructor
      · rw [hsort]
        exact hemb
      · rw [hsort]
        exact congrArg (reindex 0) hmeta
    cases saveOk <;> exact hstore

end VectorStore

namespace VectorStore

theorem mem_reindex_docid :
    ∀ (k : ℕ) (l : List Meta) (m : Meta), m ∈ reindex k l →
      ∃ m0 ∈ l, m.document_id = m0.document_id
  | _, [], _, h => absurd h (by simp [reindex])
  | k, m0 :: rest, m, h => by
    rcases List.mem_cons.mp h with h' | h'
    · exact ⟨m0, by simp, by rw [h']⟩
    · obtain ⟨m1, hm1, he⟩ := mem_reindex_docid (k + 1) rest m h'
      exact ⟨m1, by simp [hm1], he⟩

theorem reindex_map_stripIdx :
    ∀ (k : ℕ) (l : List Meta), (reindex k l).map stripIdx = l.map stripIdx
  | _, [] => rfl
  | k, m :: rest => by
    simp [reindex, stripIdx, reindex_map_stripIdx (k + 1) rest]

/-- C5: after `delete_document d` (with a successful flush, on a store
satisfying the parallel-array invariant): no remaining record references
`d`; the record count reported by `get_stats` drops by exactly the number
of records that belonged to `d`; the records of the other documents are
retained in their original relative order (equal payloads up to the
recomputed `embedding_index`); and when nothing matches, the call is a
no-op that returns normally rather than raising. -/
theorem delete_document_spec (s : Store) (d : List Char) (hinv : storeInv s) :
    (∀ m ∈ (delete_document s d true).2.metadata, m.document_id ≠ d) ∧
    (get_stats (delete_document s d true).2).total_chunks
      = (get_stats s).total_chunks
        - (s.metadata.filter (fun m => m.document_id = d)).length ∧
    (delete_document s d true).2.metadata.map stripIdx
      = (s.metadata.filter (fun m => !(m.document_id = d))).map stripIdx ∧
    ((s.metadata.filter (fun m => m.document_id = d)).length = 0 →
      delete_document s d true = (Except.ok none, s)) := by
  have hchar := delete_document_characterization s d true hinv
  refine ⟨?_, ?_, ?_, ?_⟩
  · intro m hm
    rw [hchar] at hm
    obtain ⟨m0, hm0, he⟩ := mem_reindex_docid 0 _ m hm
    have hf := List.of_mem_filter hm0
    intro hd
    rw [he] at hd
    simp [hd] at hf
  · rw [hchar]
    simp only [get_stats]
    rw [reindex_length]
    have := length_filter_not_add (fun m => (m.document_id = d : Bool)) s.metadata
    omega
  · rw [hchar]
    exact reindex_map_stripIdx 0 _
  · intro h0
    have hfnil : s.metadata.filter (fun m => (m.document_id = d : Bool)) = [] :=
      List.length_eq_zero.mp h0
    have hcnil : indicesToRemove s d = [] := by
      rw [indicesToRemove_eq_collect]
      apply List.length_eq_zero.mp
      rw [collect_length_eq_filter, hfnil]
      rfl
    unfold delete_document
    rw [if_pos (by simp [hcnil])]

theorem delete_document_spec_witness :
    (get_stats (delete_document sampleStore2 ['A'] true).2).total_chunks
      = (get_stats sampleStore2).total_chunks
        - (sampleStore2.metadata.filter (fun m => m.document_id = ['A'])).length :=
  (delete_document_spec sampleStore2 ['A'] (by decide)).2.1

end VectorStore

namespace DocumentProcessor

theorem pyStrip_eq_nil_iff (l : List Char) :
    pyStrip l = [] ↔ ∀ c ∈ l, isPySpace c = true := by
  unfold pyStrip
  rw [List.reverse_eq_nil_iff, List.dropWhile_eq_nil_iff]
  constructor
  · intro h c hc
    have hsplit := List.takeWhile_append_dropWhile (p := isPySpace) (l := l)
    rw [← hsplit] at hc
    rcases List.mem_append.mp hc with h1 | h1
    · exact List.mem_takeWhile_imp h1
    · exact h c (List.mem_reverse.mpr h1)
  · intro h c hc
    exact h c ((List.dropWhile_sublist _).subset (List.mem_reverse.mp hc))

theorem pyStrip_has_nonspace (l : List Char) (h : pyStrip l ≠ []) :
    ∃ c ∈ pyStrip l, isPySpace c = false := by
  have hBne : (l.dropWhile isPySpace).reverse.dropWhile isPySpace ≠ [] := by
    intro hb
    apply h
    unfold pyStrip
    rw [hb]
    rfl
  refine ⟨((l.dropWhile isPySpace).reverse.dropWhile isPySpace).head hBne, ?_, ?_⟩
  · show _ ∈ pyStrip l
    unfold pyStrip
    rw [List.mem_reverse]
    exact List.head_mem hBne
  · exact List.head_dropWhile_not isPySpace _ hBne

theorem sentence_mem_props (t st : List Char) (h : st ∈ split_into_sentences t) :
    st ≠ [] ∧ ∃ c ∈ st, isPySpace c = false := by
  unfold split_into_sentences at h
  have hmem := List.mem_filter.mp h
  have hne : st ≠ [] := by
    intro hnil
    rw [hnil] at hmem
    simp at hmem
  obtain ⟨frag, _, hfrag⟩ := List.mem_map.mp hmem.1
  refine ⟨hne, ?_⟩
  rw [← hfrag]
  exact pyStrip_has_nonspace frag (by rw [hfrag]; exact hne)

theorem pyStrip_append_sentence_ne_nil (a st : List Char)
    (hc : ∃ c ∈ st, isPySpace c = false) :
    pyStrip (a ++ ' ' :: st) ≠ [] := by
  intro h
  obtain ⟨c, hcm, hcf⟩ := hc
  have hall := (pyStrip_eq_nil_iff _).mp h c (by simp [hcm])
  rw [hall] at hcf
  simp at hcf

theorem chunkLoop_ne_nil (cs ov : ℕ) (d f t : List Char) :
    ∀ (sentences : List (List Char)) (current : List Char) (len idx : ℕ),
      (∀ st ∈ sentences, st ≠ [] ∧ ∃ c ∈ st, isPySpace c = false) →
      (sentences ≠ [] ∨ pyStrip current ≠ []) →
      chunkLoop cs ov d f t sentences current len idx ≠ []
  | [], current, len, idx, _, hor => by
    simp only [chunkLoop]
    rcases hor with h | h
    · exact absurd rfl h
    · rw [if_neg h]
      simp
  | s :: rest, current, len, idx, hsent, _ => by
    simp only [chunkLoop]
    split
    · simp
    · apply chunkLoop_ne_nil cs ov d f t rest _ _ _
        (fun st hst => hsent st (by simp [hst]))
      right
      exact pyStrip_append_sentence_ne_nil current s (hsent s (by simp)).2

/-- C2 counterexample: the text `"."` is non-empty after normalization
(`clean_text` keeps it unchanged), yet the chunker emits no segments,
because sentence splitting yields no non-empty fragment and therefore the
trailing accumulation stays empty. -/
theorem create_chunks_empty_cex :
    clean_text ['.'] ≠ [] ∧ create_chunks 1000 200 ['.'] ['d'] ['f'] ['t'] = [] := by
  decide

/-- C2 (amended): whenever the normalized text yields at least one
non-empty sentence fragment, the chunker emits at least one segment.
(Non-empty normalized text alone does not suffice: text consisting only of
sentence terminators and whitespace yields no fragments and no segments.) -/
theorem create_chunks_ne_nil (cs ov : ℕ) (text d f t : List Char)
    (h : split_into_sentences (clean_text text) ≠ []) :
    create_chunks cs ov text d f t ≠ [] := by
  unfold create_chunks
  exact chunkLoop_ne_nil cs ov d f t _ [] 0 0
    (fun st hst => sentence_mem_props _ st hst) (Or.inl h)

theorem create_chunks_ne_nil_witness :
    0 < (create_chunks 5 2 ['a'] ['d'] ['f'] ['t']).length :=
  List.length_pos.mpr (create_chunks_ne_nil 5 2 ['a'] ['d'] ['f'] ['t'] (by decide))

end DocumentProcessor

namespace DocumentProcessor

theorem pyStrip_length_le (l : List Char) : (pyStrip l).length ≤ l.length := by
  unfold pyStrip
  calc ((l.dropWhile isPySpace).reverse.dropWhile isPySpace).reverse.length
      = ((l.dropWhile isPySpace).reverse.dropWhile isPySpace).length := by simp
    _ ≤ (l.dropWhile isPySpace).reverse.length := (List.dropWhile_sublist _).length_le
    _ = (l.dropWhile isPySpace).length := by simp
    _ ≤ l.length := (List.dropWhile_sublist _).length_le

theorem get_overlap_length_le (c : List Char) (ov : ℕ) (hov : 0 < ov) :
    (get_overlap_text c ov).length ≤ ov := by
  unfold get_overlap_text
  split
  · next h => exact h
  · split
    · next h => omega
    · rw [List.length_drop]
      omega

theorem le_maxLen : ∀ (l : List (List Char)) (st : List Char), st ∈ l →
    st.length ≤ maxLen l
  | hd :: tl, st, h => by
    rcases List.mem_cons.mp h with rfl | h'
    · exact le_max_left _ _
    · exact le_trans (le_maxLen tl st h') (le_max_right _ _)

theorem chunkLoop_content_le (cs ov : ℕ) (d f t : List Char) (L n : ℕ)
    (hov : 0 < ov) :
    ∀ (sentences : List (List Char)) (current : List Char) (len k idx : ℕ),
      (∀ st ∈ sentences, st.length ≤ L) →
      current.length = len + k →
      len ≤ max cs (ov + 1 + L) →
      k + sentences.length ≤ n →
      ∀ c ∈ chunkLoop cs ov d f t sentences current len idx,
        c.content.length ≤ cs + ov + 1 + L + n
  | [], current, len, k, idx, _, hcl, hlen, hk, c, hc => by
    simp only [chunkLoop] at hc
    split at hc
    · simp at hc
    · simp only [List.mem_singleton] at hc
      subst hc
      show (pyStrip current).length ≤ _
      have h1 := pyStrip_length_le current
      have h2 : max cs (ov + 1 + L) ≤ cs + (ov + 1 + L) := max_le (by omega) (by omega)
      omega
  | s :: rest, current, len, k, idx, hsent, hcl, hlen, hk, c, hc => by
    simp only [chunkLoop] at hc
    split at hc
    · next hguard =>
      rcases List.mem_cons.mp hc with rfl | hc'
      · show (pyStrip current).length ≤ _
        have h1 := pyStrip_length_le current
        have h2 : max cs (ov + 1 + L) ≤ cs + (ov + 1 + L) := max_le (by omega) (by omega)
        omega
      · have hseed : (get_overlap_text current ov ++ ' ' :: s).length
            ≤ ov + 1 + s.length := by
          simp only [List.length_append, List.length_cons]
          have := get_overlap_length_le current ov hov
          omega
        have hsL : s.length ≤ L := hsent s (by simp)
        exact chunkLoop_content_le cs ov d f t L n hov rest
          (get_overlap_text current ov ++ ' ' :: s)
          (get_overlap_text current ov ++ ' ' :: s).length 0 (idx + 1)
          (fun st hst => hsent st (by simp [hst]))
          (by omega)
          (le_trans hseed (le_trans (by omega) (le_max_right cs (ov + 1 + L))))
          (by simp only [List.length_cons] at hk; omega)
          c hc'
    · next hguard =>
      have hor : len + s.length ≤ cs ∨ current = [] := by
        by_cases h1 : len + s.length ≤ cs
        · exact Or.inl h1
        · right
          by_contra h2
          exact hguard ⟨by omega, h2⟩
      have hsL : s.length ≤ L := hsent s (by simp)
      rcases hor with h1 | h1
      · exact chunkLoop_content_le cs ov d f t L n hov rest
          (current ++ ' ' :: s) (len + s.length) (k + 1) idx
          (fun st hst => hsent st (by simp [hst]))
          (by simp only [List.length_append, List.length_cons]; omega)
          (le_trans h1 (le_max_left _ _))
          (by simp only [List.length_cons] at hk; omega)
          c hc
      · have hl0 : len = 0 ∧ k = 0 := by
          rw [h1] at hcl
          simp at hcl
          omega
        exact chunkLoop_content_le cs ov d f t L n hov rest
          (current ++ ' ' :: s) (len + s.length) (k + 1) idx
          (fun st hst => hsent st (by simp [hst]))
          (by simp only [List.length_append, List.length_cons]; omega)
          (le_trans (by omega : len + s.length ≤ ov + 1 + L) (le_max_right _ _))
          (by simp only [List.length_cons] at hk; omega)
          c hc

end DocumentProcessor

namespace DocumentProcessor

theorem pyStrip_head_nonspace (l : List Char) (h : pyStrip l ≠ []) :
    ∃ c r, pyStrip l = c :: r ∧ isPySpace c = false := by
  have hA : l.dropWhile isPySpace ≠ [] := by
    intro hA
    apply h
    show ((l.dropWhile isPySpace).reverse.dropWhile isPySpace).reverse = []
    rw [hA]
    rfl
  obtain ⟨pre, hpre⟩ :=
    List.dropWhile_suffix (l := (l.dropWhile isPySpace).reverse) isPySpace
  have hA2 : l.dropWhile isPySpace
      = ((l.dropWhile isPySpace).reverse.dropWhile isPySpace).reverse
          ++ pre.reverse := by
    have h2 := congrArg List.reverse hpre
    simpa using h2.symm
  have hhead := List.head_dropWhile_not isPySpace l hA
  have hcons := List.head_cons_tail (l.dropWhile isPySpace) hA
  cases hBr : ((l.dropWhile isPySpace).reverse.dropWhile isPySpace).reverse with
  | nil => exact absurd hBr h
  | cons c cr =>
    refine ⟨c, cr, hBr, ?_⟩
    have hAc : l.dropWhile isPySpace = c :: (cr ++ pre.reverse) := by
      rw [hA2, hBr]
      simp
    rw [← hcons] at hAc
    injection hAc with h1 _
    rw [← h1]
    exact hhead

theorem pyStrip_last_nonspace (l : List Char) (h : pyStrip l ≠ []) :
    ∃ c r, (pyStrip l).reverse = c :: r ∧ isPySpace c = false := by
  have hB : (l.dropWhile isPySpace).reverse.dropWhile isPySpace ≠ [] := by
    intro hb
    apply h
    show ((l.dropWhile isPySpace).reverse.dropWhile isPySpace).reverse = []
    rw [hb]
    rfl
  have hhead := List.head_dropWhile_not isPySpace (l.dropWhile isPySpace).reverse hB
  have hcons := List.head_cons_tail _ hB
  refine ⟨((l.dropWhile isPySpace).reverse.dropWhile isPySpace).head hB,
    ((l.dropWhile isPySpace).reverse.dropWhile isPySpace).tail, ?_, hhead⟩
  have hrr : (pyStrip l).reverse
      = (l.dropWhile isPySpace).reverse.dropWhile isPySpace := by
    show ((l.dropWhile isPySpace).reverse.dropWhile isPySpace).reverse.reverse = _
    rw [List.reverse_reverse]
  rw [hrr]
  exact hcons.symm

theorem pyStrip_of_last_nonspace (l : List Char)
    (h : ∃ c r, l.reverse = c :: r ∧ isPySpace c = false) :
    pyStrip l = l.dropWhile isPySpace := by
  obtain ⟨c, r, hrev, hc⟩ := h
  have hA : l.dropWhile isPySpace ≠ [] := by
    intro hA
    have hall := List.dropWhile_eq_nil_iff.mp hA
    have hcl : c ∈ l := by
      have hm : c ∈ l.reverse := by
        rw [hrev]
        simp
      exact List.mem_reverse.mp hm
    rw [hall c hcl] at hc
    simp at hc
  obtain ⟨pre, hpre⟩ := List.dropWhile_suffix (l := l) isPySpace
  have hrev2 : l.reverse = (l.dropWhile isPySpace).reverse ++ pre.reverse := by
    conv_lhs => rw [← hpre]
    rw [List.reverse_append]
  cases hAr : (l.dropWhile isPySpace).reverse with
  | nil =>
    exfalso
    apply hA
    have h2 := congrArg List.reverse hAr
    simpa using h2
  | cons a ar =>
    have hac : a = c := by
      rw [hAr, hrev] at hrev2
      simp only [List.cons_append] at hrev2
      injection hrev2 with h1 _
      exact h1.symm
    have hdrop : (l.dropWhile isPySpace).reverse.dropWhile isPySpace
        = (l.dropWhile isPySpace).reverse := by
      rw [hAr, List.dropWhile_cons, hac, hc]
      simp
    show ((l.dropWhile isPySpace).reverse.dropWhile isPySpace).reverse = _
    rw [hdrop, List.reverse_reverse]

theorem mem_infix_dropWhile (p : Char → Bool) (c : Char) (r : List Char)
    (hc : p c = false) :
    ∀ (u v : List Char), (c :: r) <:+: ((u ++ (c :: r) ++ v).dropWhile p)
  | [], v => by
    rw [List.nil_append, List.cons_append, List.dropWhile_cons, hc]
    simp only [Bool.false_eq_true, if_false]
    exact ⟨[], v, by simp⟩
  | a :: u, v => by
    simp only [List.cons_append, List.dropWhile_cons]
    by_cases ha : p a
    · rw [ha]
      simp only [if_true]
      exact mem_infix_dropWhile p c r hc u v
    · rw [Bool.not_eq_true] at ha
      rw [ha]
      simp only [Bool.false_eq_true, if_false]
      exact ⟨a :: u, v, by simp⟩

theorem infix_pyStrip (st l : List Char)
    (hst : ∃ c r, st = c :: r ∧ isPySpace c = false)
    (hlast : ∃ c r, l.reverse = c :: r ∧ isPySpace c = false)
    (hin : st <:+: l) : st <:+: pyStrip l := by
  obtain ⟨c, r, rfl, hc⟩ := hst
  obtain ⟨u, v, huv⟩ := hin
  rw [pyStrip_of_last_nonspace l hlast, ← huv]
  exact mem_infix_dropWhile isPySpace c r hc u v

theorem ex_last_append_sentence (a st : List Char)
    (h : ∃ c r, st.reverse = c :: r ∧ isPySpace c = false) :
    ∃ c r, (a ++ ' ' :: st).reverse = c :: r ∧ isPySpace c = false := by
  obtain ⟨c, r, hrev, hc⟩ := h
  refine ⟨c, r ++ ' ' :: a.reverse, ?_, hc⟩
  rw [List.reverse_append, List.reverse_cons, hrev]
  simp

theorem chunkLoop_infix_carry (cs ov : ℕ) (d f t : List Char) :
    ∀ (sentences : List (List Char)) (current : List Char) (len idx : ℕ),
      (∀ st ∈ sentences,
        (∃ c r, st = c :: r ∧ isPySpace c = false) ∧
        (∃ c r, st.reverse = c :: r ∧ isPySpace c = false)) →
      (current = [] ∨ ∃ c r, current.reverse = c :: r ∧ isPySpace c = false) →
      ∀ st0, (∃ c r, st0 = c :: r ∧ isPySpace c = false) →
        (st0 <:+: current ∨ st0 ∈ sentences) →
        ∃ c ∈ chunkLoop cs ov d f t sentences current len idx, st0 <:+: c.content
  | [], current, len, idx, _, hcur, st0, h0, hin => by
    rcases hin with hinf | hmem
    swap
    · simp at hmem
    obtain ⟨c0, r0, hst0, _⟩ := id h0
    have hcur' : ∃ c r, current.reverse = c :: r ∧ isPySpace c = false := by
      rcases hcur with rfl | h
      · exfalso
        obtain ⟨u, v, huv⟩ := hinf
        rw [hst0] at huv
        simp at huv
      · exact h
    have hinf2 := infix_pyStrip st0 current h0 hcur' hinf
    have hne : pyStrip current ≠ [] := by
      intro hh
      rw [hh] at hinf2
      obtain ⟨u, v, huv⟩ := hinf2
      rw [hst0] at huv
      simp at huv
    simp only [chunkLoop]
    rw [if_neg hne]
    exact ⟨create_chunk_dict (pyStrip current) d f idx t,
      List.mem_singleton.mpr rfl, hinf2⟩
  | s :: rest, current, len, idx, hsent, hcur, st0, h0, hin => by
    have hs := hsent s (by simp)
    simp only [chunkLoop]
    split
    · next hguard =>
      rcases hin with hinf | hmem
      · have hcr : ∃ c r, current.reverse = c :: r ∧ isPySpace c = false := by
          rcases hcur with rfl | h
          · exact absurd rfl hguard.2
          · exact h
        exact ⟨create_chunk_dict (pyStrip current) d f idx t,
          List.mem_cons_self _ _, infix_pyStrip st0 current h0 hcr hinf⟩
      · rcases List.mem_cons.mp hmem with rfl | hmem'
        · obtain ⟨c1, hc1, hinf1⟩ := chunkLoop_infix_carry cs ov d f t rest
            (get_overlap_text current ov ++ ' ' :: st0)
            (get_overlap_text current ov ++ ' ' :: st0).length (idx + 1)
            (fun st hst => hsent st (by simp [hst]))
            (Or.inr (ex_last_append_sentence (get_overlap_text current ov) st0 hs.2))
            st0 h0
            (Or.inl ⟨get_overlap_text current ov ++ [' '], [], by simp⟩)
          exact ⟨c1, List.mem_cons_of_mem _ hc1, hinf1⟩
        · obtain ⟨c1, hc1, hinf1⟩ := chunkLoop_infix_carry cs ov d f t rest
            (get_overlap_text current ov ++ ' ' :: s)
            (get_overlap_text current ov ++ ' ' :: s).length (idx + 1)
            (fun st hst => hsent st (by simp [hst]))
            (Or.inr (ex_last_append_sentence (get_overlap_text current ov) s hs.2))
            st0 h0 (Or.inr hmem')
          exact ⟨c1, List.mem_cons_of_mem _ hc1, hinf1⟩
    · rcases hin with hinf | hmem
      · obtain ⟨u, v, huv⟩ := hinf
        exact chunkLoop_infix_carry cs ov d f t rest (current ++ ' ' :: s)
          (len + s.length) idx
          (fun st hst => hsent st (by simp [hst]))
          (Or.inr (ex_last_append_sentence current s hs.2))
          st0 h0 (Or.inl ⟨u, v ++ ' ' :: s, by rw [← huv]; simp⟩)
      · rcases List.mem_cons.mp hmem with rfl | hmem'
        · exact chunkLoop_infix_carry cs ov d f t rest (current ++ ' ' :: st0)
            (len + st0.length) idx
            (fun st hst => hsent st (by simp [hst]))
            (Or.inr (ex_last_append_sentence current st0 hs.2))
            st0 h0 (Or.inl ⟨current ++ [' '], [], by simp⟩)
        · exact chunkLoop_infix_carry cs ov d f t rest (current ++ ' ' :: s)
            (len + s.length) idx
            (fun st hst => hsent st (by simp [hst]))
            (Or.inr (ex_last_append_sentence current s hs.2))
            st0 h0 (Or.inr hmem')

end DocumentProcessor

namespace DocumentProcessor

theorem sentence_shape (txt st : List Char) (h : st ∈ split_into_sentences txt) :
    (∃ c r, st = c :: r ∧ isPySpace c = false) ∧
    (∃ c r, st.reverse = c :: r ∧ isPySpace c = false) := by
  unfold split_into_sentences at h
  have hmem := List.mem_filter.mp h
  have hne : st ≠ [] := by
    intro hnil
    rw [hnil] at hmem
    simp at hmem
  obtain ⟨frag, _, hfrag⟩ := List.mem_map.mp hmem.1
  constructor
  · rw [← hfrag]
    exact pyStrip_head_nonspace frag (by rw [hfrag]; exact hne)
  · rw [← hfrag]
    exact pyStrip_last_nonspace frag (by rw [hfrag]; exact hne)

/-- C3 counterexample: with `chunk_size = 10`, a text of twelve
one-character sentences yields a first emitted segment of 19 raw
characters — more than `chunk_size + longest sentence = 11` — because the
loop's `current_length` does not count the joining spaces. -/
theorem create_chunks_oversize_cex :
    (split_into_sentences (clean_text "a. b. c. d. e. f. g. h. i. j. k. l.".toList)).all
        (fun s => s.length = 1) = true ∧
    ∃ c ∈ create_chunks 10 5 "a. b. c. d. e. f. g. h. i. j. k. l.".toList
        ['d'] ['f'] ['t'], 10 + 1 < c.content.length := by
  decide

/-- C3 (amended): for every chunk_size and every positive chunk_overlap,
each emitted segment's raw character count is at most
`chunk_size + chunk_overlap + 1 + (length of the longest sentence) +
(number of sentences)` — the extra terms account for the overlap seed and
the joining spaces the loop's length tracking omits — and no sentence is
ever truncated: every sentence of the text occurs contiguously (as an
infix) in at least one emitted segment. -/
theorem create_chunks_bound (cs ov : ℕ) (text d f t : List Char)
    (hov : 0 < ov) :
    (∀ c ∈ create_chunks cs ov text d f t,
      c.content.length ≤ cs + ov + 1
        + maxLen (split_into_sentences (clean_text text))
        + (split_into_sentences (clean_text text)).length) ∧
    ∀ st ∈ split_into_sentences (clean_text text),
      ∃ c ∈ create_chunks cs ov text d f t, st <:+: c.content := by
  constructor
  · intro c hc
    exact chunkLoop_content_le cs ov d f t
      (maxLen (split_into_sentences (clean_text text)))
      (split_into_sentences (clean_text text)).length hov
      (split_into_sentences (clean_text text)) [] 0 0 0
      (fun st hst => le_maxLen _ st hst) rfl (Nat.zero_le _)
      (by omega) c hc
  · intro st hst
    exact chunkLoop_infix_carry cs ov d f t
      (split_into_sentences (clean_text text)) [] 0 0
      (fun st' hst' => sentence_shape _ st' hst')
      (Or.inl rfl) st (sentence_shape _ st hst).1 (Or.inr hst)

theorem create_chunks_bound_witness :
    (create_chunks 10 5 "a. b.".toList ['d'] ['f'] ['t']).all
      (fun c => c.content.length ≤ 10 + 5 + 1
        + maxLen (split_into_sentences (clean_text "a. b.".toList))
        + (split_into_sentences (clean_text "a. b.".toList)).length) = true := by
  apply List.all_eq_true.mpr
  intro c hc
  exact decide_eq_true
    ((create_chunks_bound 10 5 "a. b.".toList ['d'] ['f'] ['t'] (by decide)).1 c hc)

end DocumentProcessor

namespace VectorStore

theorem similarities_fst_lt (S : SqrtFn) (s : Store) (q : List ℚ) :
    (similarities S s q).Pairwise (fun a b => a.1 < b.1) := by
  unfold similarities
  rw [List.pairwise_map]
  have h1 : (s.embeddings.enum.map Prod.fst).Pairwise (· < ·) := by
    rw [List.enum_map_fst]
    exact List.pairwise_lt_range _
  rw [List.pairwise_map] at h1
  exact h1.imp (fun h => h)

theorem similarities_map_fst (S : SqrtFn) (s : Store) (q : List ℚ) :
    (similarities S s q).map Prod.fst = List.range s.embeddings.length := by
  unfold similarities
  rw [List.map_map]
  have hcongr : s.embeddings.enum.map
      (Prod.fst ∘ fun ie => (ie.1, cosine_similarity S q ie.2))
      = s.embeddings.enum.map Prod.fst :=
    List.map_congr_left (fun a _ => rfl)
  rw [hcongr, List.enum_map_fst]

theorem both_orders_sublist {α : Type} (x y : α) :
    ∀ (l : List α), l.Nodup → List.Sublist [x, y] l → List.Sublist [y, x] l → x = y
  | [], _, h1, _ => by cases h1
  | c :: t, hnd, h1, h2 => by
    rw [List.nodup_cons] at hnd
    cases h1 with
    | cons _ h1' =>
      cases h2 with
      | cons _ h2' => exact both_orders_sublist x y t hnd.2 h1' h2'
      | cons₂ h2' =>
        exfalso
        exact hnd.1 (h1'.subset (by simp))
    | cons₂ h1' =>
      cases h2 with
      | cons _ h2' =>
        exfalso
        exact hnd.1 (h2'.subset (by simp))
      | cons₂ h2' => rfl

theorem pairwise_key_pair_sublist {α : Type} (key : α → ℕ) :
    ∀ (l : List α), l.Pairwise (fun a b => key a < key b) →
      ∀ x y, x ∈ l → y ∈ l → key x < key y → List.Sublist [x, y] l
  | [], _, x, _, hx, _, _ => absurd hx (by simp)
  | c :: t, hp, x, y, hx, hy, hxy => by
    rw [List.pairwise_cons] at hp
    rcases List.mem_cons.mp hx with rfl | hx'
    · rcases List.mem_cons.mp hy with rfl | hy'
      · exact absurd hxy (lt_irrefl _)
      · exact List.Sublist.cons₂ _ (List.singleton_sublist.mpr hy')
    · rcases List.mem_cons.mp hy with rfl | hy'
      · exact absurd (lt_trans hxy (hp.1 x hx')) (lt_irrefl _)
      · exact List.Sublist.cons _ (pairwise_key_pair_sublist key t hp.2 x y hx' hy' hxy)

theorem filterMap_get_eq_map (s : Store) :
    ∀ (l : List (ℕ × ℚ)), (∀ p ∈ l, p.1 < s.metadata.length) →
      l.filterMap (fun p => (s.metadata.get? p.1).map
          (fun m => (⟨m, p.2⟩ : SearchResult)))
        = l.map (fun p => (⟨s.metadata.getD p.1 defaultMeta, p.2⟩ : SearchResult))
  | [], _ => rfl
  | a :: t, hidx => by
    have hlt := hidx a (by simp)
    have h1 : s.metadata.get? a.1 = some (s.metadata.get ⟨a.1, hlt⟩) :=
      List.get?_eq_get hlt
    have h2 : s.metadata.getD a.1 defaultMeta = s.metadata.get ⟨a.1, hlt⟩ := by
      rw [List.getD_eq_getElem?_getD, ← List.get?_eq_getElem?, h1]
      rfl
    rw [List.filterMap_cons, List.map_cons, h1]
    simp only [Option.map_some']
    rw [filterMap_get_eq_map s t (fun p hp => hidx p (by simp [hp])), h2]

/-- C1: `search` computes a similarity for every stored vector, ranks them
by descending score with ties broken by insertion order (stable sort),
truncates the ranking to the first `top_k` entries, then discards entries
scoring below the threshold and returns each survivor's metadata with its
score; consequently it never returns more than `top_k` results and every
returned score is at least the threshold. -/
theorem search_spec (S : SqrtFn) (s : Store) (q : List ℚ) (top_k : ℕ)
    (threshold : ℚ) (hlen : s.embeddings.length = s.metadata.length) :
    ((similarities S s q).insertionSort scoreGe).Perm (similarities S s q) ∧
    ((similarities S s q).insertionSort scoreGe).Pairwise
      (fun a b => b.2 < a.2 ∨ (a.2 = b.2 ∧ a.1 < b.1)) ∧
    search S s q top_k threshold
      = ((((similarities S s q).insertionSort scoreGe).take top_k).filter
          (fun p => threshold ≤ p.2)).map
          (fun p => (⟨s.metadata.getD p.1 defaultMeta, p.2⟩ : SearchResult)) ∧
    (search S s q top_k threshold).length ≤ top_k ∧
    ∀ r ∈ search S s q top_k threshold, threshold ≤ r.score := by
  have hfst := similarities_fst_lt S s q
  have hperm := List.perm_insertionSort scoreGe (similarities S s q)
  have hpair : ((similarities S s q).insertionSort scoreGe).Pairwise
      (fun a b => b.2 < a.2 ∨ (a.2 = b.2 ∧ a.1 < b.1)) := by
    rw [List.pairwise_iff_forall_sublist]
    intro a b hab
    have hge : scoreGe a b :=
      List.pairwise_iff_forall_sublist.mp
        (List.sorted_insertionSort scoreGe (similarities S s q)) hab
    by_cases heq : a.2 = b.2
    · right
      refine ⟨heq, ?_⟩
      have hnodup_fst : ((similarities S s q).insertionSort scoreGe).Pairwise
          (fun x y => x.1 ≠ y.1) := by
        have h1 : (similarities S s q).Pairwise (fun x y => x.1 ≠ y.1) :=
          hfst.imp (fun h => Nat.ne_of_lt h)
        exact (List.Perm.pairwise_iff (fun h => h.symm) hperm).mpr h1
      have hne : a.1 ≠ b.1 := List.pairwise_iff_forall_sublist.mp hnodup_fst hab
      rcases Nat.lt_or_ge a.1 b.1 with h | h
      · exact h
      · exfalso
        have hba : b.1 < a.1 := lt_of_le_of_ne h (Ne.symm hne)
        have hmema : a ∈ similarities S s q :=
          (List.mem_insertionSort _).mp (hab.subset (by simp))
        have hmemb : b ∈ similarities S s q :=
          (List.mem_insertionSort _).mp (hab.subset (by simp))
        have hsubl := pairwise_key_pair_sublist Prod.fst
          (similarities S s q) hfst b a hmemb hmema hba
        have hout := List.pair_sublist_insertionSort (r := scoreGe)
          (show scoreGe b a from le_of_eq heq) hsubl
        have hnodup : ((similarities S s q).insertionSort scoreGe).Nodup := by
          apply (List.Perm.nodup_iff hperm).mpr
          exact hfst.imp
            (fun h => fun he => absurd (congrArg Prod.fst he) (Nat.ne_of_lt h))
        exact hne (congrArg Prod.fst (both_orders_sublist a b _ hnodup hab hout))
    · left
      exact lt_of_le_of_ne hge (fun h => heq h.symm)
  have hsearch_eq : search S s q top_k threshold
      = ((((similarities S s q).insertionSort scoreGe).take top_k).filter
          (fun p => threshold ≤ p.2)).map
          (fun p => (⟨s.metadata.getD p.1 defaultMeta, p.2⟩ : SearchResult)) := by
    unfold search
    by_cases hemp : s.embeddings.isEmpty
    · rw [if_pos hemp]
      have he : s.embeddings = [] := by
        cases hh : s.embeddings
        · rfl
        · rw [hh] at hemp
          simp [List.isEmpty] at hemp
      simp [similarities, he]
    · rw [if_neg hemp]
      apply filterMap_get_eq_map
      intro p hp
      have hp1 : p ∈ (similarities S s q).insertionSort scoreGe :=
        (List.take_sublist _ _).subset (List.mem_of_mem_filter hp)
      have hp2 : p ∈ similarities S s q := (List.mem_insertionSort _).mp hp1
      have hp3 : p.1 ∈ (similarities S s q).map Prod.fst :=
        List.mem_map_of_mem _ hp2
      rw [similarities_map_fst] at hp3
      rw [← hlen]
      exact List.mem_range.mp hp3
  refine ⟨hperm, hpair, hsearch_eq, ?_, ?_⟩
  · rw [hsearch_eq, List.length_map]
    exact le_trans (List.length_filter_le _ _) (List.length_take_le _ _)
  · intro r hr
    rw [hsearch_eq] at hr
    obtain ⟨p, hp, rfl⟩ := List.mem_map.mp hr
    have hf := List.of_mem_filter hp
    simpa using hf

theorem search_spec_witness :
    (search idSqrt sampleStoreA [0] 5 0).length ≤ 5 :=
  (search_spec idSqrt sampleStoreA [0] 5 0 rfl).2.2.2.1

end VectorStore
